import Mathlib

/-!
Verification of the flaggen core (src/main.rs): a shallow embedding of the
flag-generation data model, the random-selection rules and the per-pixel
compositing logic, together with proofs about the behaviour claimed in the
design document.

Machine arithmetic is modelled exactly:

* `f32` values are rationals; every `f32` operation of the source is the exact
  rational operation followed by `roundf32`, an exact model of IEEE-754
  binary32 round-to-nearest, ties-to-even (valid for magnitudes below `2^128`,
  far above anything the generator produces; overflow and NaN never arise on
  the modelled executions and are noted where a convention is picked).
* the process-wide `fastrand` generator is modelled as an arbitrary stream
  `g : ℕ → ℕ` of raw draws consumed at increasing indices; each `fastrand`
  entry point reduces a raw draw to its documented range.  Distribution is
  not modelled, only the set of possible values.
* code that can terminate the process (out-of-bounds indexing) is embedded
  with `Option`, `none` marking the aborted execution.
-/

/-- Round a rational to the nearest integer, ties to even
(the IEEE-754 default rounding used by every Rust `f32` operation). -/
def rni (q : ℚ) : ℤ :=
  if q - ⌊q⌋ < 1/2 then ⌊q⌋
  else if (1:ℚ)/2 < q - ⌊q⌋ then ⌊q⌋ + 1
  else if 2 ∣ ⌊q⌋ then ⌊q⌋ else ⌊q⌋ + 1

/-- The exponent of the least significant bit position of the IEEE-754
binary32 value nearest to `q`: 24 significant bits below the leading binade,
clamped at the subnormal limit `2^(-149)`. -/
def cexp (q : ℚ) : ℤ := max (Int.log 2 |q| - 23) (-149)

/-- Exact model of rounding a real (here rational) value to the nearest
IEEE-754 binary32 value, ties to even. -/
def roundf32 (q : ℚ) : ℚ :=
  if q = 0 then 0 else (rni (q / (2:ℚ) ^ cexp q) : ℚ) * (2:ℚ) ^ cexp q

/-- `f32` addition: exact sum, then rounding. -/
def f32add (a b : ℚ) : ℚ := roundf32 (a + b)

/-- `f32` subtraction: exact difference, then rounding. -/
def f32sub (a b : ℚ) : ℚ := roundf32 (a - b)

/-- `f32` multiplication: exact product, then rounding. -/
def f32mul (a b : ℚ) : ℚ := roundf32 (a * b)

/-- `f32` division: exact quotient, then rounding.  Division by zero (which
in IEEE-754 produces an infinity or NaN) inherits the rational convention
`a / 0 = 0`; the generator only divides by zero on zero-area canvases, whose
pixel loops never run. -/
def f32div (a b : ℚ) : ℚ := roundf32 (a / b)

/-- Floor of the square root of a nonnegative rational:
`⌊√(n/d)⌋ = ⌊√(n·d)⌋ / d`. -/
def ratSqrtFloor (q : ℚ) : ℕ := Nat.sqrt (q.num.toNat * q.den) / q.den

/-- Exact model of IEEE-754 binary32 square root (correctly rounded, ties to
even).  The floor of the scaled root is computed exactly, and the tie /
direction test compares the radicand with the squared midpoint.  Negative
inputs (NaN in IEEE-754, never produced by the generator, which only takes
square roots of sums of squares) are mapped to 0. -/
def f32sqrt (q : ℚ) : ℚ :=
  if q ≤ 0 then 0 else
  let z := Int.ediv (Int.log 2 q) 2
  let c := max (z - 23) (-149)
  let t := q * (2:ℚ) ^ (-2 * c)
  let k := ratSqrtFloor t
  let mid : ℚ := ((2 * k + 1 : ℕ) : ℚ) ^ 2 / 4
  let k' : ℕ := if t < mid then k else if mid < t then k + 1
    else if k % 2 = 0 then k else k + 1
  (k' : ℚ) * (2:ℚ) ^ c

/-- Rust `u32 as i32` (wrapping) conversion, as applied by the source when
building the `i32` position and size vectors. -/
def i32ofU32 (n : ℕ) : ℤ := if n < 2^31 then (n : ℤ) else (n : ℤ) - 2^32

/-- Rust `f32 as usize` conversion: truncation toward zero, saturating at 0
for negative values (the saturation at `usize::MAX`, and the NaN-to-0 rule,
are irrelevant at the magnitudes the generator produces). -/
def f32toUsize (q : ℚ) : ℕ := (⌊q⌋).toNat

theorem rni_intCast (k : ℤ) : rni (k : ℚ) = k := by
  simp [rni]

theorem rni_le (q : ℚ) : (rni q : ℚ) ≤ q + 1/2 := by
  unfold rni
  have h0 : (⌊q⌋ : ℚ) ≤ q := Int.floor_le q
  have h1 : q < ⌊q⌋ + 1 := Int.lt_floor_add_one q
  split_ifs <;> push_cast <;> linarith

theorem le_rni (q : ℚ) : q - 1/2 ≤ (rni q : ℚ) := by
  unfold rni
  have h0 : (⌊q⌋ : ℚ) ≤ q := Int.floor_le q
  have h1 : q < ⌊q⌋ + 1 := Int.lt_floor_add_one q
  split_ifs with h2 h3 <;> push_cast <;> linarith

theorem floor_le_rni (q : ℚ) : ⌊q⌋ ≤ rni q := by
  unfold rni
  split_ifs <;> omega

theorem rni_nonneg {q : ℚ} (h : 0 ≤ q) : 0 ≤ rni q := by
  have := Int.floor_nonneg.mpr h
  have := floor_le_rni q
  omega

theorem ilog2_le {q : ℚ} {z : ℤ} (h0 : 0 < q) (h : q < (2:ℚ) ^ (z + 1)) :
    Int.log 2 q ≤ z := by
  by_contra hlt
  push_neg at hlt
  have h1 : (2:ℚ) ^ Int.log 2 q ≤ q := Int.zpow_log_le_self (by norm_num) h0
  have h2 : (2:ℚ) ^ (z + 1) ≤ (2:ℚ) ^ Int.log 2 q :=
    zpow_le_zpow_right₀ (by norm_num) (by omega)
  linarith

theorem le_ilog2 {q : ℚ} {z : ℤ} (h : (2:ℚ) ^ z ≤ q) : z ≤ Int.log 2 q := by
  have h0 : 0 < q := lt_of_lt_of_le (zpow_pos (by norm_num) z) h
  by_contra hlt
  push_neg at hlt
  have h1 : q < (2:ℚ) ^ (Int.log 2 q + 1) := Int.lt_zpow_succ_log_self (by norm_num) q
  have h2 : (2:ℚ) ^ (Int.log 2 q + 1) ≤ (2:ℚ) ^ z :=
    zpow_le_zpow_right₀ (by norm_num) (by omega)
  linarith

theorem ilog2_eq {q : ℚ} {z : ℤ} (h1 : (2:ℚ) ^ z ≤ q) (h2 : q < (2:ℚ) ^ (z + 1)) :
    Int.log 2 q = z :=
  le_antisymm (ilog2_le (lt_of_lt_of_le (zpow_pos (by norm_num) z) h1) h2) (le_ilog2 h1)

theorem cexp_eq {q : ℚ} {z : ℤ} (h0 : 0 < q) (h1 : (2:ℚ) ^ z ≤ q)
    (h2 : q < (2:ℚ) ^ (z + 1)) (hz : -126 ≤ z) : cexp q = z - 23 := by
  unfold cexp
  rw [abs_of_pos h0, ilog2_eq h1 h2, max_eq_left (by omega)]

theorem roundf32_eval {q : ℚ} {z : ℤ} (h0 : 0 < q) (h1 : (2:ℚ) ^ z ≤ q)
    (h2 : q < (2:ℚ) ^ (z + 1)) (hz : -126 ≤ z) :
    roundf32 q = (rni (q / (2:ℚ) ^ (z - 23)) : ℚ) * (2:ℚ) ^ (z - 23) := by
  unfold roundf32
  rw [if_neg (ne_of_gt h0), cexp_eq h0 h1 h2 hz]

theorem roundf32_zero : roundf32 0 = 0 := by
  simp [roundf32]

theorem roundf32_eq_self {q : ℚ} (m e : ℤ) (hq : q = (m : ℚ) * (2:ℚ) ^ e)
    (hm : m.natAbs < 2^24) (he : -149 ≤ e) : roundf32 q = q := by
  rcases eq_or_ne m 0 with rfl | hm0
  · simp [hq, roundf32]
  · have h2e : (0:ℚ) < (2:ℚ) ^ e := zpow_pos (by norm_num) e
    have hqne : q ≠ 0 := by
      rw [hq]
      exact mul_ne_zero (Int.cast_ne_zero.mpr hm0) (ne_of_gt h2e)
    have habs : |q| = ((m.natAbs : ℤ) : ℚ) * (2:ℚ) ^ e := by
      rw [hq, abs_mul, abs_of_pos h2e, ← Int.cast_abs, Int.abs_eq_natAbs]
    have hub : |q| < (2:ℚ) ^ (e + 24) := by
      have h2 : ((m.natAbs : ℤ) : ℚ) < 2 ^ 24 := by exact_mod_cast hm
      calc |q| = ((m.natAbs : ℤ) : ℚ) * (2:ℚ) ^ e := habs
        _ < 2 ^ 24 * (2:ℚ) ^ e := mul_lt_mul_of_pos_right h2 h2e
        _ = (2:ℚ) ^ (e + 24) := by
            rw [zpow_add₀ (by norm_num : (2:ℚ) ≠ 0), mul_comm]
            norm_num
    set c := cexp q with hc
    have hcle : c ≤ e := by
      have hz : Int.log 2 |q| ≤ e + 23 :=
        ilog2_le (abs_pos.mpr hqne) (by rw [show e + 23 + 1 = e + 24 by ring]; exact hub)
      rw [hc]
      unfold cexp
      exact max_le (by omega) he
    have hd : (0:ℤ) ≤ e - c := by omega
    set d := (e - c).toNat with hdd
    have hdc : e - c = (d : ℤ) := (Int.toNat_of_nonneg hd).symm
    have hpow : (2:ℚ) ^ (e - c) = ((2 ^ d : ℤ) : ℚ) := by
      rw [hdc, zpow_natCast]
      push_cast
      ring
    have hqc : q / (2:ℚ) ^ c = ((m * 2 ^ d : ℤ) : ℚ) := by
      rw [hq, mul_div_assoc, ← zpow_sub₀ (by norm_num : (2:ℚ) ≠ 0), hpow]
      push_cast
      ring
    unfold roundf32
    rw [if_neg hqne, ← hc, hqc, rni_intCast, ← hqc]
    exact div_mul_cancel₀ q (ne_of_gt (zpow_pos (by norm_num) c))

theorem roundf32_err (q : ℚ) : |roundf32 q - q| ≤ (2:ℚ) ^ (cexp q - 1) := by
  rcases eq_or_ne q 0 with rfl | hq
  · rw [roundf32_zero]
    simp only [sub_zero, abs_zero]
    positivity
  · unfold roundf32
    rw [if_neg hq]
    have h2c : (0:ℚ) < (2:ℚ) ^ cexp q := zpow_pos (by norm_num) _
    set x := q / (2:ℚ) ^ cexp q with hx
    have h1 : (rni x : ℚ) * (2:ℚ) ^ cexp q - q = ((rni x : ℚ) - x) * (2:ℚ) ^ cexp q := by
      rw [sub_mul, hx, div_mul_cancel₀ _ (ne_of_gt h2c)]
    rw [h1, abs_mul, abs_of_pos h2c]
    have h2 : |(rni x : ℚ) - x| ≤ 1/2 := by
      rw [abs_le]
      constructor
      · linarith [le_rni x]
      · linarith [rni_le x]
    calc |(rni x : ℚ) - x| * (2:ℚ) ^ cexp q ≤ 1/2 * (2:ℚ) ^ cexp q :=
          mul_le_mul_of_nonneg_right h2 (le_of_lt h2c)
      _ = (2:ℚ) ^ (cexp q - 1) := by
          rw [zpow_sub₀ (by norm_num : (2:ℚ) ≠ 0), zpow_one]
          ring

theorem roundf32_nonneg {q : ℚ} (h : 0 ≤ q) : 0 ≤ roundf32 q := by
  rcases eq_or_lt_of_le h with heq | hpos
  · simp [← heq, roundf32_zero]
  · unfold roundf32
    rw [if_neg (ne_of_gt hpos)]
    have h2c : (0:ℚ) < (2:ℚ) ^ cexp q := zpow_pos (by norm_num) _
    have h1 : (0:ℤ) ≤ rni (q / (2:ℚ) ^ cexp q) := rni_nonneg (le_of_lt (div_pos hpos h2c))
    have h2 : (0:ℚ) ≤ (rni (q / (2:ℚ) ^ cexp q) : ℚ) := by exact_mod_cast h1
    exact mul_nonneg h2 (le_of_lt h2c)

theorem roundf32_err_of_ub {q : ℚ} {z : ℤ} (h2 : |q| < (2:ℚ) ^ (z + 1)) (hz : -126 ≤ z) :
    |roundf32 q - q| ≤ (2:ℚ) ^ (z - 24) := by
  rcases eq_or_ne q 0 with rfl | hq
  · rw [roundf32_zero]
    simp only [sub_zero, abs_zero]
    positivity
  · have hlog : Int.log 2 |q| ≤ z := ilog2_le (abs_pos.mpr hq) h2
    have hcexp : cexp q ≤ z - 23 := by
      unfold cexp
      exact max_le (by omega) (by omega)
    calc |roundf32 q - q| ≤ (2:ℚ) ^ (cexp q - 1) := roundf32_err q
      _ ≤ (2:ℚ) ^ (z - 24) := zpow_le_zpow_right₀ (by norm_num) (by omega)

theorem roundf32_ge_pow {q : ℚ} (h0 : 0 < q) (hlog : -126 ≤ Int.log 2 q) :
    (2:ℚ) ^ Int.log 2 q ≤ roundf32 q := by
  have hc : cexp q = Int.log 2 q - 23 := by
    unfold cexp
    rw [abs_of_pos h0, max_eq_left (by omega)]
  unfold roundf32
  rw [if_neg (ne_of_gt h0), hc]
  have h2c : (0:ℚ) < (2:ℚ) ^ (Int.log 2 q - 23) := zpow_pos (by norm_num) _
  have hx : (2:ℚ) ^ (23:ℤ) ≤ q / (2:ℚ) ^ (Int.log 2 q - 23) := by
    rw [le_div_iff₀ h2c, ← zpow_add₀ (by norm_num : (2:ℚ) ≠ 0)]
    rw [show (23:ℤ) + (Int.log 2 q - 23) = Int.log 2 q by ring]
    exact Int.zpow_log_le_self (by norm_num) h0
  have hfl : (2^23 : ℤ) ≤ ⌊q / (2:ℚ) ^ (Int.log 2 q - 23)⌋ := by
    rw [Int.le_floor]
    calc ((2^23 : ℤ) : ℚ) = (2:ℚ) ^ (23:ℤ) := by push_cast; norm_num
      _ ≤ _ := hx
  have hr : (2^23 : ℤ) ≤ rni (q / (2:ℚ) ^ (Int.log 2 q - 23)) :=
    le_trans hfl (floor_le_rni _)
  calc (2:ℚ) ^ Int.log 2 q = (2:ℚ) ^ (23:ℤ) * (2:ℚ) ^ (Int.log 2 q - 23) := by
        rw [← zpow_add₀ (by norm_num : (2:ℚ) ≠ 0)]
        congr 1
        ring
    _ ≤ (rni (q / (2:ℚ) ^ (Int.log 2 q - 23)) : ℚ) * (2:ℚ) ^ (Int.log 2 q - 23) := by
        apply mul_le_mul_of_nonneg_right _ (le_of_lt h2c)
        calc (2:ℚ) ^ (23:ℤ) = ((2^23 : ℤ) : ℚ) := by push_cast; norm_num
          _ ≤ _ := by exact_mod_cast hr

theorem roundf32_ge_half {q : ℚ} (h : 1/2 ≤ q) : 1/2 ≤ roundf32 q := by
  have h0 : 0 < q := lt_of_lt_of_le (by norm_num) h
  have hz : -1 ≤ Int.log 2 q := by
    apply le_ilog2
    calc (2:ℚ) ^ (-1:ℤ) = 1/2 := by norm_num
      _ ≤ q := h
  calc (1/2 : ℚ) = (2:ℚ) ^ (-1:ℤ) := by norm_num
    _ ≤ (2:ℚ) ^ Int.log 2 q := zpow_le_zpow_right₀ (by norm_num) hz
    _ ≤ roundf32 q := roundf32_ge_pow h0 (by omega)

theorem roundf32_natCast (n : ℕ) (hn : n ≤ 2^24) : roundf32 (n : ℚ) = n := by
  by_cases hlt : n < 2^24
  · apply roundf32_eq_self (n : ℤ) 0
    · push_cast
      ring
    · simpa using hlt
    · norm_num
  · have hn24 : n = 2^24 := le_antisymm hn (not_lt.mp hlt)
    subst hn24
    apply roundf32_eq_self 1 24
    · push_cast
      norm_num
    · norm_num
    · norm_num

theorem roundf32_one : roundf32 1 = 1 := by
  have h := roundf32_natCast 1 (by norm_num)
  simpa using h

theorem roundf32_two : roundf32 2 = 2 := by
  have h := roundf32_natCast 2 (by norm_num)
  simpa using h

theorem roundf32_half : roundf32 (1/2) = 1/2 :=
  roundf32_eq_self 1 (-1) (by norm_num) (by norm_num) (by norm_num)

theorem roundf32_neg_half : roundf32 (-(1/2)) = -(1/2) :=
  roundf32_eq_self (-1) (-1) (by norm_num) (by norm_num) (by norm_num)

/-- `image::Rgb<u8>`: a triple of 8-bit channel values. -/
structure Rgb where
  r : ℕ
  g : ℕ
  b : ℕ
deriving DecidableEq

/-- `image::RgbImage`: a width × height grid of colors, row-major
(pixel `(x, y)` lives at index `y * width + x`). -/
structure RgbImage where
  width : ℕ
  height : ℕ
  data : List Rgb
deriving DecidableEq

/-- `struct FlagBackground { horizontal: bool, lines: Vec<Rgb<u8>> }`. -/
structure FlagBackground where
  horizontal : Bool
  lines : List Rgb
deriving DecidableEq

/-- `enum FlagForegroundShape { Circle, Ring(f32), LeftTriangle }`
(`strum::EnumCount` gives `COUNT = 3`). -/
inductive FlagForegroundShape where
  | circle
  | ring (width : ℚ)
  | leftTriangle
deriving DecidableEq

/-- `struct FlagForeground { color: Rgb<u8>, shape: FlagForegroundShape }`. -/
structure FlagForeground where
  color : Rgb
  shape : FlagForegroundShape
deriving DecidableEq

/-- `fastrand::u8(0..=u8::MAX)`: a full-range 8-bit draw. -/
def fastrandU8 (g : ℕ → ℕ) (k : ℕ) : ℕ := g k % 256

/-- `fastrand::bool()`: one random bit. -/
def fastrandBool (g : ℕ → ℕ) (k : ℕ) : Bool := g k % 2 == 1

/-- `fastrand::usize(lo..hi)`: a draw reduced to the half-open range. -/
def fastrandUsize (g : ℕ → ℕ) (k : ℕ) (lo hi : ℕ) : ℕ := lo + g k % (hi - lo)

/-- `fastrand::f32()`: 23 random significand bits giving a multiple of
`2^(-23)` in `[0, 1)`. -/
def fastrandF32 (g : ℕ → ℕ) (k : ℕ) : ℚ := ((g k % 2^23 : ℕ) : ℚ) / 2^23

/-- `random_color()`: three independent channel draws, in order. -/
def random_color (g : ℕ → ℕ) (k : ℕ) : Rgb × ℕ :=
  (⟨fastrandU8 g k, fastrandU8 g (k+1), fastrandU8 g (k+2)⟩, k + 3)

/-- `(0..amount).map(|_| random_color()).collect()`: colors drawn left to
right, threading the stream position. -/
def randColors (g : ℕ → ℕ) : ℕ → ℕ → List Rgb × ℕ
  | 0, k => ([], k)
  | n + 1, k =>
    let c := random_color g k
    let rest := randColors g n c.2
    (c.1 :: rest.1, rest.2)

/-- `FlagBackground::random()`: stripe count uniform in `1..6`, that many
colors, then the orientation coin flip (evaluated at struct construction,
after the colors). -/
def FlagBackground.random (g : ℕ → ℕ) (k : ℕ) : FlagBackground × ℕ :=
  let amount := fastrandUsize g k 1 6
  let cs := randColors g amount (k + 1)
  (⟨fastrandBool g cs.2, cs.1⟩, cs.2 + 1)

/-- The `f32` literal `0.5` (exactly representable). -/
def c05 : ℚ := roundf32 (1/2)

/-- The `f32` literal `0.1` (rounded at compile time). -/
def c01 : ℚ := roundf32 (1/10)

/-- `FlagForegroundShape::random()`: a draw in `0..COUNT` selects the
variant; Ring gets width `fastrand::f32() * 0.5 + 0.1`.  The final arm here
covers the source's arm `2` (LeftTriangle); the source's wildcard arm is
`unreachable!()` and is modelled by `randomChecked` below. -/
def FlagForegroundShape.random (g : ℕ → ℕ) (k : ℕ) : FlagForegroundShape × ℕ :=
  match fastrandUsize g k 0 3 with
  | 0 => (.circle, k + 1)
  | 1 => (.ring (f32add (f32mul (fastrandF32 g (k+1)) c05) c01), k + 2)
  | _ => (.leftTriangle, k + 1)

/-- `FlagForegroundShape::random()` with the source's match structure kept
verbatim: the wildcard arm is `unreachable!()`, i.e. `none`. -/
def FlagForegroundShape.randomChecked (g : ℕ → ℕ) (k : ℕ) :
    Option (FlagForegroundShape × ℕ) :=
  match fastrandUsize g k 0 3 with
  | 0 => some (.circle, k + 1)
  | 1 => some (.ring (f32add (f32mul (fastrandF32 g (k+1)) c05) c01), k + 2)
  | 2 => some (.leftTriangle, k + 1)
  | _ => none

/-- `FlagForeground::random()`: a color, then a shape. -/
def FlagForeground.random (g : ℕ → ℕ) (k : ℕ) : FlagForeground × ℕ :=
  let c := random_color g k
  let s := FlagForegroundShape.random g c.2
  (⟨c.1, s.1⟩, s.2)

/-- `let radius = 0.8 / 2.0;` evaluated in `f32`. -/
def radius : ℚ := f32div (roundf32 (8/10)) 2

/-- `Vector2::repeat(image.width().min(image.height()) as f32)`:
the shorter canvas side, as `f32`. -/
def lowerSize (w h : ℕ) : ℚ := roundf32 ((min w h : ℕ) : ℚ)

/-- The normalized distance from center used by the circle-family branch:
`(pos - size / 2).map(|x| x as f32).component_div(&lower_size)` followed by
`.magnitude()` (nalgebra: `sqrt(x*x + y*y)` with each `f32` step rounded). -/
def circleDist (w h : ℕ) (p : ℤ × ℤ) : ℚ :=
  let nx := f32div (roundf32 ((p.1 - Int.tdiv (i32ofU32 w) 2 : ℤ) : ℚ)) (lowerSize w h)
  let ny := f32div (roundf32 ((p.2 - Int.tdiv (i32ofU32 h) 2 : ℤ) : ℚ)) (lowerSize w h)
  f32sqrt (f32add (f32mul nx nx) (f32mul ny ny))

/-- Circle membership: `distance <= radius`. -/
def circleTest (w h : ℕ) (p : ℤ × ℤ) : Bool :=
  decide (circleDist w h p ≤ radius)

/-- Ring membership: `((radius - ring_width / 2.0)..=radius).contains(&distance)`. -/
def ringTest (rwidth : ℚ) (w h : ℕ) (p : ℤ × ℤ) : Bool :=
  decide (f32sub radius (f32div rwidth 2) ≤ circleDist w h p ∧ circleDist w h p ≤ radius)

/-- LeftTriangle membership: positions divided directly by the shorter side
(no centering), then `(pos.x + (pos.y - 0.5).abs()) < 0.5`. -/
def triangleTest (w h : ℕ) (p : ℤ × ℤ) : Bool :=
  let nx := f32div (roundf32 (p.1 : ℚ)) (lowerSize w h)
  let ny := f32div (roundf32 (p.2 : ℚ)) (lowerSize w h)
  decide (f32add nx |f32sub ny c05| < c05)

/-- The pixel position handed to the rasterizer closures:
`enumerate_pixels_mut` yields `(x, y)` row-major, cast `as i32`. -/
def pixPos (w : ℕ) (i : ℕ) : ℤ × ℤ := (i32ofU32 (i % w), i32ofU32 (i / w))

/-- `FlagForeground::draw_with_fn`: overwrite with `color` every pixel whose
position satisfies `f`, leave the rest untouched. -/
def drawWithFn (img : RgbImage) (color : Rgb) (f : ℤ × ℤ → Bool) : RgbImage :=
  ⟨img.width, img.height,
    img.data.enum.map (fun e => if f (pixPos img.width e.1) then color else e.2)⟩

/-- The membership predicate of each shape variant, exactly the closures of
`draw_on`. -/
def memberTest (s : FlagForegroundShape) (w h : ℕ) (p : ℤ × ℤ) : Bool :=
  match s with
  | .circle => circleTest w h p
  | .ring rwidth => ringTest rwidth w h p
  | .leftTriangle => triangleTest w h p

/-- `FlagForeground::draw_on`: dispatch on the shape and rasterize its
predicate (the source's nested circle-family match is flattened here; the
verbatim nested structure, with its unreachable arm, is `drawOnChecked`). -/
def FlagForeground.draw_on (fg : FlagForeground) (img : RgbImage) : RgbImage :=
  match fg.shape with
  | .circle => drawWithFn img fg.color (circleTest img.width img.height)
  | .ring rwidth => drawWithFn img fg.color (ringTest rwidth img.width img.height)
  | .leftTriangle => drawWithFn img fg.color (triangleTest img.width img.height)

/-- Per-element fallible map: `none` as soon as one element fails
(the embedding of a loop whose body can abort the process). -/
def mapO (f : α → Option β) : List α → Option (List β)
  | [] => some []
  | a :: as =>
    match f a, mapO f as with
    | some b, some bs => some (b :: bs)
    | _, _ => none

/-- `draw_with_fn` with a per-pixel test that can hit dead code (`none`). -/
def drawWithFnChecked (img : RgbImage) (color : Rgb) (f : ℤ × ℤ → Option Bool) :
    Option RgbImage :=
  (mapO (fun e => (f (pixPos img.width e.1)).map (fun t => if t then color else e.2))
    img.data.enum).map (fun d => ⟨img.width, img.height, d⟩)

/-- `FlagForeground::draw_on` with the source's nested match kept verbatim:
the circle-family branch re-matches the shape inside the closure, and its
wildcard arm is `unreachable!()`, i.e. `none`. -/
def FlagForeground.drawOnChecked (fg : FlagForeground) (img : RgbImage) :
    Option RgbImage :=
  match fg.shape with
  | .circle | .ring _ =>
    drawWithFnChecked img fg.color (fun p =>
      match fg.shape with
      | .circle => some (circleTest img.width img.height p)
      | .ring rwidth => some (ringTest rwidth img.width img.height p)
      | .leftTriangle => none)
  | .leftTriangle =>
    drawWithFnChecked img fg.color (fun p => some (triangleTest img.width img.height p))

/-- The stripe-selection coordinate of `create_flag`:
`x as f32 / width as f32` for horizontal backgrounds, else
`y as f32 / height as f32`. -/
def stripePos (bg : FlagBackground) (w h x y : ℕ) : ℚ :=
  if bg.horizontal then f32div (roundf32 (x : ℚ)) (roundf32 (w : ℚ))
  else f32div (roundf32 (y : ℚ)) (roundf32 (h : ℚ))

/-- The stripe index of `create_flag`:
`(pos * background.lines.len() as f32) as usize`. -/
def stripeIndex (bg : FlagBackground) (w h x y : ℕ) : ℕ :=
  f32toUsize (f32mul (stripePos bg w h x y) (roundf32 (bg.lines.length : ℚ)))

/-- `create_flag`: fill the stripes pixel by pixel (`none` when the stripe
index runs out of bounds, which aborts the Rust process), then draw the
optional foreground on top. -/
def create_flag (bg : FlagBackground) (fg : Option FlagForeground) (w h : ℕ) :
    Option RgbImage :=
  (mapO (fun i => bg.lines[stripeIndex bg w h (i % w) (i / w)]?)
      (List.range (w * h))).map
    (fun d =>
      match fg with
      | some f => f.draw_on ⟨w, h, d⟩
      | none => ⟨w, h, d⟩)

/-- The random selections of `random_flag`, before compositing: background,
foreground-presence coin (forced for solid backgrounds), foreground sampling
and the solid-background shape override. -/
def randomFlagParts (g : ℕ → ℕ) (k : ℕ) : FlagBackground × Option FlagForeground :=
  let bk := FlagBackground.random g k
  let hasForeground0 := fastrandBool g bk.2
  let solid := bk.1.lines.length == 1
  let hasForeground := if solid then true else hasForeground0
  let fg0 := if hasForeground then some (FlagForeground.random g (bk.2 + 1)).1 else none
  let fg := if solid then fg0.map (fun f => { f with shape := .circle }) else fg0
  (bk.1, fg)

/-- `random_flag(width, height)`: random parts, then `create_flag`. -/
def random_flag (g : ℕ → ℕ) (k : ℕ) (w h : ℕ) : Option RgbImage :=
  create_flag (randomFlagParts g k).1 (randomFlagParts g k).2 w h

theorem c05_eq : c05 = 1/2 := roundf32_half

theorem randColors_length (g : ℕ → ℕ) : ∀ n k, (randColors g n k).1.length = n := by
  intro n
  induction n with
  | zero => intro k; rfl
  | succ n ih => intro k; simp [randColors, ih]

theorem mapO_some {α β : Type} (f : α → Option β) (gf : α → β) :
    ∀ l : List α, (∀ a ∈ l, f a = some (gf a)) → mapO f l = some (l.map gf)
  | [], _ => rfl
  | a :: as, h => by
    have ha := h a (List.mem_cons_self a as)
    have htail := mapO_some f gf as (fun x hx => h x (List.mem_cons_of_mem a hx))
    simp [mapO, ha, htail]

theorem mapO_none {α β : Type} (f : α → Option β) :
    ∀ l : List α, (∃ a ∈ l, f a = none) → mapO f l = none
  | a :: as, h => by
    rcases h with ⟨x, hx, hfx⟩
    rcases List.mem_cons.mp hx with rfl | hmem
    · simp [mapO, hfx]
    · have htail := mapO_none f as ⟨x, hmem, hfx⟩
      simp [mapO, htail]

theorem drawWithFnChecked_eq (img : RgbImage) (color : Rgb) (f : ℤ × ℤ → Bool) :
    drawWithFnChecked img color (fun p => some (f p)) = some (drawWithFn img color f) := by
  show (mapO (fun e => some (if f (pixPos img.width e.1) then color else e.2))
      img.data.enum).map (fun d => (⟨img.width, img.height, d⟩ : RgbImage)) =
    some (⟨img.width, img.height,
      img.data.enum.map (fun e => if f (pixPos img.width e.1) then color else e.2)⟩ : RgbImage)
  rw [mapO_some (fun e => some (if f (pixPos img.width e.1) then color else e.2))
    (fun e => if f (pixPos img.width e.1) then color else e.2) img.data.enum
    (fun a _ => rfl)]
  rfl

/-- Claim C6: every background produced by `FlagBackground::random` has
between 1 and 5 stripes inclusive, for every possible draw of the random
source. -/
theorem claim_C6 (g : ℕ → ℕ) (k : ℕ) :
    1 ≤ (FlagBackground.random g k).1.lines.length ∧
    (FlagBackground.random g k).1.lines.length ≤ 5 := by
  have hlen : (FlagBackground.random g k).1.lines.length = fastrandUsize g k 1 6 := by
    simp [FlagBackground.random, randColors_length]
  rw [hlen]
  unfold fastrandUsize
  have h5 : g k % 5 < 5 := Nat.mod_lt _ (by norm_num)
  omega

/-- Claim C1: whenever the sampled background is solid (exactly one stripe),
`random_flag` assembles a present foreground whose shape is Circle, whatever
was sampled in the foreground step. -/
theorem claim_C1 (g : ℕ → ℕ) (k : ℕ)
    (hsolid : (randomFlagParts g k).1.lines.length = 1) :
    ∃ c, (randomFlagParts g k).2 = some ⟨c, .circle⟩ := by
  have h1 : (FlagBackground.random g k).1.lines.length = 1 := by
    simpa [randomFlagParts] using hsolid
  refine ⟨(FlagForeground.random g ((FlagBackground.random g k).2 + 1)).1.color, ?_⟩
  simp [randomFlagParts, h1]

/-- Claim C1 witness: a concrete stream producing a solid background. -/
theorem claim_C1_witness :
    (randomFlagParts (fun _ => 0) 0).1.lines.length = 1 ∧
    ∃ c, (randomFlagParts (fun _ => 0) 0).2 = some ⟨c, .circle⟩ :=
  ⟨by decide, claim_C1 (fun _ => 0) 0 (by decide)⟩

/-- Claim C10: both `unreachable!()` arms are dead: the shape sampler's
wildcard arm is never taken (the draw is always in `{0, 1, 2}`), and the
circle-family rasterizer closure never sees a LeftTriangle shape; hence the
verbatim (checked) translations agree with the total ones on all inputs. -/
theorem claim_C10 :
    (∀ (g : ℕ → ℕ) (k : ℕ),
      FlagForegroundShape.randomChecked g k = some (FlagForegroundShape.random g k)) ∧
    (∀ (fg : FlagForeground) (img : RgbImage),
      fg.drawOnChecked img = some (fg.draw_on img)) := by
  constructor
  · intro g k
    have h3 : fastrandUsize g k 0 3 < 3 := by
      unfold fastrandUsize
      have := Nat.mod_lt (g k) (show 0 < 3 by norm_num)
      omega
    unfold FlagForegroundShape.randomChecked FlagForegroundShape.random
    rcases e : fastrandUsize g k 0 3 with _ | _ | _ | m
    · simp
    · simp
    · simp
    · rw [e] at h3
      omega
  · intro fg img
    rcases fg with ⟨c, s⟩
    cases s with
    | circle => exact drawWithFnChecked_eq img c (circleTest img.width img.height)
    | ring rwidth => exact drawWithFnChecked_eq img c (ringTest rwidth img.width img.height)
    | leftTriangle => exact drawWithFnChecked_eq img c (triangleTest img.width img.height)

/-- Claim C9: with a zero width or height the compositor succeeds and returns
the empty buffer, foreground or not (the rasterizer touches no pixels). -/
theorem claim_C9 (bg : FlagBackground) (fg : Option FlagForeground) (w h : ℕ)
    (hz : w = 0 ∨ h = 0) : create_flag bg fg w h = some ⟨w, h, []⟩ := by
  have hwh : w * h = 0 := by rcases hz with rfl | rfl <;> simp
  unfold create_flag
  rw [hwh]
  simp only [List.range_zero]
  rw [show mapO (fun i => bg.lines[stripeIndex bg w h (i % w) (i / w)]?) [] = some []
    from rfl]
  rcases fg with _ | f
  · rfl
  · rcases f with ⟨c, s⟩
    cases s <;> simp [FlagForeground.draw_on, drawWithFn]

/-- Claim C9 witness: concrete degenerate call with a foreground present. -/
theorem claim_C9_witness :
    create_flag ⟨true, [⟨255, 0, 0⟩]⟩ (some ⟨⟨0, 0, 255⟩, .circle⟩) 0 7 =
      some ⟨0, 7, []⟩ :=
  claim_C9 ⟨true, [⟨255, 0, 0⟩]⟩ (some ⟨⟨0, 0, 255⟩, .circle⟩) 0 7 (Or.inl rfl)

/-- Claim C8: the rasterizer overwrites exactly the pixels whose position
satisfies the shape's membership predicate, preserves all others, and keeps
the buffer size. -/
theorem claim_C8 (fg : FlagForeground) (img : RgbImage) :
    (fg.draw_on img).data.length = img.data.length ∧
    ∀ i, i < img.data.length →
      (fg.draw_on img).data[i]? =
        if memberTest fg.shape img.width img.height (pixPos img.width i) then some fg.color
        else img.data[i]? := by
  have hgen : ∀ (c : Rgb) (f : ℤ × ℤ → Bool),
      (drawWithFn img c f).data.length = img.data.length ∧
      ∀ i, i < img.data.length →
        (drawWithFn img c f).data[i]? =
          if f (pixPos img.width i) then some c else img.data[i]? := by
    intro c f
    constructor
    · simp [drawWithFn]
    · intro i hi
      unfold drawWithFn
      rw [List.getElem?_map, List.getElem?_enum, List.getElem?_eq_getElem hi]
      by_cases hf : f (pixPos img.width i) <;>
        simp [hf, List.getElem?_eq_getElem hi]
  rcases fg with ⟨c, s⟩
  cases s with
  | circle => exact hgen c (circleTest img.width img.height)
  | ring rwidth => exact hgen c (ringTest rwidth img.width img.height)
  | leftTriangle => exact hgen c (triangleTest img.width img.height)

theorem triangleTest_one_one : triangleTest 1 1 (0, 0) = false := by
  have hls : lowerSize 1 1 = 1 := by
    unfold lowerSize
    norm_num [roundf32_one]
  show decide (f32add (f32div (roundf32 ((0:ℤ) : ℚ)) (lowerSize 1 1))
      |f32sub (f32div (roundf32 ((0:ℤ) : ℚ)) (lowerSize 1 1)) c05| < c05) = false
  have hdiv0 : f32div (roundf32 ((0:ℤ) : ℚ)) (lowerSize 1 1) = 0 := by
    rw [hls]
    unfold f32div
    norm_num [roundf32_zero]
  rw [hdiv0]
  have h2 : f32sub 0 c05 = -(1/2) := by
    rw [c05_eq]
    unfold f32sub
    norm_num [roundf32_neg_half]
  have h3 : |(-(1/2) : ℚ)| = 1/2 := by
    rw [abs_neg, abs_of_pos (by norm_num : (0:ℚ) < 1/2)]
  have h4 : f32add 0 (1/2) = 1/2 := by
    unfold f32add
    norm_num [roundf32_half]
  rw [h2, h3, h4, c05_eq]
  simp

/-- Claim C8 witness: a concrete 1×1 canvas whose single pixel fails the
LeftTriangle predicate and keeps its stripe color. -/
theorem claim_C8_witness :
    0 < (RgbImage.mk 1 1 [⟨9, 9, 9⟩]).data.length ∧
    ((FlagForeground.mk ⟨1, 2, 3⟩ .leftTriangle).draw_on ⟨1, 1, [⟨9, 9, 9⟩]⟩).data[0]? =
      some ⟨9, 9, 9⟩ := by
  refine ⟨by decide, ?_⟩
  have h := (claim_C8 ⟨⟨1, 2, 3⟩, .leftTriangle⟩ ⟨1, 1, [⟨9, 9, 9⟩]⟩).2 0 (by decide)
  rw [h]
  rw [show pixPos 1 0 = (0, 0) by decide]
  rw [show memberTest .leftTriangle 1 1 (0, 0) = triangleTest 1 1 (0, 0) from rfl,
    triangleTest_one_one]
  decide

/-- Claim C5: the Ring rasterizer paints a pixel exactly when its computed
distance lies in the closed interval from `radius - ring_width / 2` (as
computed in `f32`) up to `radius`; consequently every Ring pixel also
satisfies the Circle predicate, so rings of any width only thicken inward. -/
theorem claim_C5 (rwidth : ℚ) (w h : ℕ) (p : ℤ × ℤ) :
    (ringTest rwidth w h p = true ↔
      (f32sub radius (f32div rwidth 2) ≤ circleDist w h p ∧ circleDist w h p ≤ radius)) ∧
    (ringTest rwidth w h p = true → circleTest w h p = true) := by
  constructor
  · unfold ringTest
    simp only [decide_eq_true_eq]
  · intro hr
    unfold ringTest at hr
    simp only [decide_eq_true_eq] at hr
    unfold circleTest
    simp only [decide_eq_true_eq]
    exact hr.2

/-- Claim C5 witness: on a 2×2 canvas the center pixel has distance 0 and is
painted by a Ring of width `0.8f32`, hence also satisfies the Circle test. -/
theorem claim_C5_witness :
    ringTest (roundf32 (8/10)) 2 2 (1, 1) = true ∧ circleTest 2 2 (1, 1) = true := by
  have hcd : circleDist 2 2 (1, 1) = 0 := by
    norm_num [circleDist, lowerSize, f32div, f32mul, f32add, f32sqrt, roundf32_zero,
      roundf32_two, show Int.tdiv (i32ofU32 2) 2 = 1 by decide]
  have hlo : f32sub radius (f32div (roundf32 (8/10)) 2) = 0 := by
    show f32sub radius radius = 0
    unfold f32sub
    norm_num [roundf32_zero]
  have hr0 : 0 ≤ radius := by
    unfold radius f32div
    apply roundf32_nonneg
    apply div_nonneg _ (by norm_num)
    exact roundf32_nonneg (by norm_num)
  have hring : ringTest (roundf32 (8/10)) 2 2 (1, 1) = true := by
    unfold ringTest
    simp only [decide_eq_true_eq]
    exact ⟨by rw [hcd, hlo], by rw [hcd]; exact hr0⟩
  exact ⟨hring, (claim_C5 (roundf32 (8/10)) 2 2 (1, 1)).2 hring⟩

theorem roundf32_int_div_pow (m : ℤ) (n : ℕ) (hm : m.natAbs < 2^24) (hn : n ≤ 149) :
    roundf32 ((m : ℚ) / 2^n) = (m : ℚ) / 2^n := by
  apply roundf32_eq_self m (-(n:ℤ))
  · rw [zpow_neg, zpow_natCast, div_eq_mul_inv]
  · exact hm
  · omega

theorem roundf32_33554431 : roundf32 (33554431 : ℚ) = 33554432 := by
  have h := @roundf32_eval 33554431 24 (by norm_num) (by norm_num) (by norm_num) (by norm_num)
  rw [h]
  have e1 : (33554431 : ℚ) / (2:ℚ) ^ ((24:ℤ) - 23) = 33554431/2 := by norm_num
  rw [e1]
  have hf : ⌊(33554431/2 : ℚ)⌋ = 16777215 := by
    rw [Int.floor_eq_iff]
    constructor <;> norm_num
  have hr : rni (33554431/2 : ℚ) = 16777216 := by
    unfold rni
    rw [hf]
    norm_num
  rw [hr]
  norm_num

theorem roundf32_33554432 : roundf32 (33554432 : ℚ) = 33554432 :=
  roundf32_eq_self 1 25 (by norm_num) (by norm_num) (by norm_num)

theorem stripePos_big (lines : List Rgb) :
    stripePos ⟨true, lines⟩ (2^25) 1 (2^25 - 1) 0 = 1 := by
  unfold stripePos
  have hc1 : (((2:ℕ)^25 - 1 : ℕ) : ℚ) = 33554431 := by norm_num
  have hc2 : (((2:ℕ)^25 : ℕ) : ℚ) = 33554432 := by norm_num
  simp only [if_pos]
  rw [hc1, hc2, roundf32_33554431, roundf32_33554432]
  unfold f32div
  norm_num [roundf32_one]

/-- Claim C2 at the failing input: at width `2^25`, height 1, the rightmost
pixel's `x as f32` rounds up to `2^25`, the axis position becomes exactly 1,
and the computed stripe index equals `stripes.len()` — out of bounds, so the
claimed bound fails and the Rust indexing panics. -/
theorem claim_C2_oob :
    ¬ (stripeIndex ⟨true, [⟨255, 0, 0⟩]⟩ (2^25) 1 (2^25 - 1) 0 <
      (FlagBackground.mk true [⟨255, 0, 0⟩]).lines.length) := by
  have hsi : stripeIndex ⟨true, [⟨255, 0, 0⟩]⟩ (2^25) 1 (2^25 - 1) 0 = 1 := by
    unfold stripeIndex
    rw [stripePos_big]
    have hl : (((FlagBackground.mk true [⟨255, 0, 0⟩]).lines.length : ℕ) : ℚ) = 1 := by
      norm_num
    rw [hl, roundf32_one]
    unfold f32mul
    norm_num [roundf32_one, f32toUsize]
  rw [hsi]
  norm_num

/-- Claim C3 at the failing input: with stripes `[A, B]`, width `2^25` and
height 1, the pixel `(2^25 - 1, 0)` (which is in the `x ≥ W/2` half, so the
claim promises color `B`) gets stripe index 2, and the composition aborts
(`none`): the Rust code panics instead of producing a buffer. -/
theorem claim_C3_oob :
    stripeIndex ⟨true, [⟨255, 0, 0⟩, ⟨0, 0, 255⟩]⟩ (2^25) 1 (2^25 - 1) 0 = 2 ∧
    create_flag ⟨true, [⟨255, 0, 0⟩, ⟨0, 0, 255⟩]⟩ none (2^25) 1 = none := by
  have hsi : stripeIndex ⟨true, [⟨255, 0, 0⟩, ⟨0, 0, 255⟩]⟩ (2^25) 1 (2^25 - 1) 0 = 2 := by
    unfold stripeIndex
    rw [stripePos_big]
    have hl : (((FlagBackground.mk true [⟨255, 0, 0⟩, ⟨0, 0, 255⟩]).lines.length : ℕ) : ℚ)
        = 2 := by norm_num
    rw [hl, roundf32_two]
    unfold f32mul
    norm_num [roundf32_two, f32toUsize]
    rfl
  refine ⟨hsi, ?_⟩
  unfold create_flag
  have hnone : mapO
      (fun i => (FlagBackground.mk true [⟨255, 0, 0⟩, ⟨0, 0, 255⟩]).lines[stripeIndex
        ⟨true, [⟨255, 0, 0⟩, ⟨0, 0, 255⟩]⟩ (2^25) 1 (i % 2^25) (i / 2^25)]?)
      (List.range (2^25 * 1)) = none := by
    apply mapO_none
    refine ⟨2^25 - 1, ?_, ?_⟩
    · rw [List.mem_range]
      norm_num
    · have hm : ((2:ℕ)^25 - 1) % (2^25) = 2^25 - 1 := Nat.mod_eq_of_lt (by norm_num)
      have hd : ((2:ℕ)^25 - 1) / (2^25) = 0 := Nat.div_eq_of_lt (by norm_num)
      rw [hm, hd, hsi]
      rfl
  rw [hnone]
  rfl

theorem c01_eq : c01 = 13421773/2^27 := by
  have h := @roundf32_eval (1/10) (-4) (by norm_num) (by norm_num) (by norm_num) (by norm_num)
  unfold c01
  rw [h]
  have e1 : (1/10 : ℚ) / (2:ℚ) ^ ((-4:ℤ) - 23) = 67108864/5 := by norm_num
  rw [e1]
  have hf : ⌊(67108864/5 : ℚ)⌋ = 13421772 := by
    rw [Int.floor_eq_iff]
    constructor <;> norm_num
  have hr : rni (67108864/5 : ℚ) = 13421773 := by
    unfold rni
    rw [hf]
    norm_num
  rw [hr]
  norm_num

theorem ringWidth_mul (j : ℕ) (hj : j < 2^23) :
    f32mul ((j : ℚ)/2^23) c05 = (j : ℚ)/2^24 := by
  rw [c05_eq]
  unfold f32mul
  rw [show (j : ℚ)/2^23 * (1/2) = (j:ℚ)/2^24 by ring]
  have h := roundf32_int_div_pow (j : ℤ) 24 (by simp [Int.natAbs_ofNat]; omega) (by norm_num)
  simpa using h

theorem ringWidth_bounds (j : ℕ) (hj : j < 2^23) :
    1/10 ≤ roundf32 ((j:ℚ)/2^24 + 13421773/2^27) ∧
    roundf32 ((j:ℚ)/2^24 + 13421773/2^27) < 3/5 := by
  set s : ℚ := (j:ℚ)/2^24 + 13421773/2^27 with hs
  clear_value s
  have hj1 : (j:ℚ) + 1 ≤ 2^23 := by exact_mod_cast hj
  have hj0 : (0:ℚ) ≤ (j:ℚ) := by positivity
  have hs_lb : 13421773/2^27 ≤ s := by rw [hs]; linarith
  have hs_ub : s ≤ 80530629/2^27 := by rw [hs]; linarith
  have hspos : 0 < s := by linarith [show (0:ℚ) < 13421773/2^27 by norm_num]
  have hs1 : s < 1 := by linarith [show (80530629:ℚ)/2^27 < 1 by norm_num]
  have herr : |roundf32 s - s| ≤ (2:ℚ) ^ ((-1:ℤ) - 24) := by
    apply roundf32_err_of_ub
    · rw [abs_of_pos hspos, show ((-1:ℤ) + 1) = 0 by ring, zpow_zero]
      exact hs1
    · norm_num
  have h25 : (2:ℚ) ^ ((-1:ℤ) - 24) = 1/2^25 := by norm_num
  rw [h25] at herr
  have habs := abs_le.mp herr
  constructor
  · by_cases hj00 : j = 0
    · have e : s = ((13421773:ℤ):ℚ)/2^27 := by
        rw [hs, hj00]
        push_cast
        ring
      have hfix : roundf32 s = s := by
        rw [e]
        exact roundf32_int_div_pow 13421773 27 (by norm_num) (by norm_num)
      rw [hfix, e]
      norm_num
    · have hjge : (1:ℚ) ≤ (j:ℚ) := by
        have h1j : 1 ≤ j := Nat.one_le_iff_ne_zero.mpr hj00
        exact_mod_cast h1j
      have hge : 13421773/2^27 + 1/2^25 ≤ s := by rw [hs]; linarith
      have hC10 : (1:ℚ)/10 < 13421773/2^27 := by norm_num
      linarith [habs.1]
  · by_cases hhalf : s < 1/2
    · linarith [habs.2]
    · push_neg at hhalf
      have heval := @roundf32_eval s (-1) hspos
        (by rw [show ((2:ℚ) ^ (-1:ℤ)) = 1/2 by norm_num]; exact hhalf)
        (by rw [show ((-1:ℤ) + 1) = 0 by ring, zpow_zero]; exact hs1)
        (by norm_num)
      have e24 : (2:ℚ) ^ ((-1:ℤ) - 23) = 1/2^24 := by norm_num
      rw [heval, e24]
      have ediv : s / (1/2^24 : ℚ) = s * 2^24 := by field_simp
      rw [ediv]
      have hb : (rni (s * 2^24) : ℚ) ≤ s * 2^24 + 1/2 := rni_le _
      have hs24 : s * 2^24 ≤ 80530629/2^27 * 2^24 :=
        mul_le_mul_of_nonneg_right hs_ub (by norm_num)
      have hcst : (80530629:ℚ)/2^27 * 2^24 = 80530629/8 := by norm_num
      rw [hcst] at hs24
      have h1 : (rni (s * 2^24) : ℚ) < 10066330 := by
        calc (rni (s * 2^24) : ℚ) ≤ s * 2^24 + 1/2 := hb
          _ ≤ 80530629/8 + 1/2 := by linarith
          _ < 10066330 := by norm_num
      have h2 : rni (s * 2^24) < 10066330 := by exact_mod_cast h1
      have h3 : (rni (s * 2^24) : ℚ) ≤ 10066329 := by
        have h4 : rni (s * 2^24) ≤ 10066329 := by omega
        exact_mod_cast h4
      calc (rni (s * 2^24) : ℚ) * (1/2^24) ≤ 10066329 * (1/2^24) :=
            mul_le_mul_of_nonneg_right h3 (by norm_num)
        _ < 3/5 := by norm_num

/-- Claim C7: whenever `FlagForegroundShape::random` produces a Ring, its
width (computed as `fastrand::f32() * 0.5 + 0.1` in `f32`) lies in
`[0.1, 0.6)`, for every possible draw of the random source. -/
theorem claim_C7 (g : ℕ → ℕ) (k : ℕ) (rwidth : ℚ) (k2 : ℕ)
    (h : FlagForegroundShape.random g k = (.ring rwidth, k2)) :
    1/10 ≤ rwidth ∧ rwidth < 3/5 := by
  have h3 : fastrandUsize g k 0 3 < 3 := by
    unfold fastrandUsize
    have hlt := Nat.mod_lt (g k) (show 0 < 3 by norm_num)
    omega
  unfold FlagForegroundShape.random at h
  rcases e : fastrandUsize g k 0 3 with _ | _ | _ | m
  · rw [e] at h
    simp at h
  · rw [e] at h
    simp at h
    obtain ⟨h1, _⟩ := h
    rw [← h1]
    have hlt : g (k+1) % 2^23 < 2^23 := Nat.mod_lt _ (by norm_num)
    have hval : f32add (f32mul (fastrandF32 g (k+1)) c05) c01 =
        roundf32 (((g (k+1) % 2^23 : ℕ) : ℚ)/2^24 + 13421773/2^27) := by
      unfold fastrandF32
      rw [ringWidth_mul (g (k+1) % 2^23) hlt]
      unfold f32add
      rw [c01_eq]
    rw [hval]
    exact ringWidth_bounds (g (k+1) % 2^23) hlt
  · rw [e] at h
    simp at h
  · rw [e] at h3
    omega

/-- Claim C7 witness: a concrete stream selecting Ring with a zero `f32`
draw, giving width exactly `0.1f32 = 13421773/2^27`. -/
theorem claim_C7_witness :
    FlagForegroundShape.random (fun i => if i = 0 then 1 else 0) 0 =
      (.ring (13421773/2^27), 2) ∧
    (1/10 ≤ (13421773/2^27 : ℚ) ∧ (13421773/2^27 : ℚ) < 3/5) := by
  have hv : fastrandF32 (fun i => if i = 0 then 1 else 0) 1 = 0 := by
    unfold fastrandF32
    norm_num
  have h1 : f32mul (fastrandF32 (fun i => if i = 0 then 1 else 0) 1) c05 = 0 := by
    rw [hv]
    unfold f32mul
    rw [zero_mul, roundf32_zero]
  have h2 : f32add (f32mul (fastrandF32 (fun i => if i = 0 then 1 else 0) 1) c05) c01 =
      13421773/2^27 := by
    rw [h1]
    unfold f32add
    rw [zero_add, c01_eq]
    have h := roundf32_int_div_pow 13421773 27 (by norm_num) (by norm_num)
    simpa using h
  have heq : FlagForegroundShape.random (fun i => if i = 0 then 1 else 0) 0 =
      (.ring (13421773/2^27), 2) := by
    unfold FlagForegroundShape.random
    show (FlagForegroundShape.ring
        (f32add (f32mul (fastrandF32 (fun i => if i = 0 then 1 else 0) 1) c05) c01), 2) =
      (FlagForegroundShape.ring (13421773/2^27), 2)
    rw [h2]
  exact ⟨heq, claim_C7 (fun i => if i = 0 then 1 else 0) 0 (13421773/2^27) 2 heq⟩

theorem triangle_mid_lt (r : ℚ) (h14 : 1/4 ≤ r) (hstrict : r ≤ 1/2 - 1/2^25) :
    f32add 0 |f32sub (roundf32 r) (1/2)| < 1/2 := by
  have hp : 0 < r := lt_of_lt_of_le (by norm_num) h14
  have heval := @roundf32_eval r (-2) hp
    (by rw [show ((2:ℚ) ^ (-2:ℤ)) = 1/4 by norm_num]; exact h14)
    (by rw [show ((-2:ℤ) + 1) = -1 by ring, show ((2:ℚ) ^ (-1:ℤ)) = 1/2 by norm_num]; linarith)
    (by norm_num)
  have e25 : (2:ℚ) ^ ((-2:ℤ) - 23) = 1/2^25 := by norm_num
  rw [e25] at heval
  have ediv : r / (1/2^25 : ℚ) = r * 2^25 := by field_simp
  rw [ediv] at heval
  have hKub : (rni (r * 2^25) : ℚ) ≤ r * 2^25 + 1/2 := rni_le _
  have hKlb : r * 2^25 - 1/2 ≤ (rni (r * 2^25) : ℚ) := le_rni _
  set K := rni (r * 2^25) with hKdef
  clear_value K
  have hs1 : (2^23 : ℚ) ≤ r * 2^25 := by
    have hm := mul_le_mul_of_nonneg_right h14 (show (0:ℚ) ≤ 2^25 by norm_num)
    rw [show (1/4:ℚ) * 2^25 = 2^23 by norm_num] at hm
    exact hm
  have hs2 : r * 2^25 ≤ 2^24 - 1 := by
    have hm := mul_le_mul_of_nonneg_right hstrict (show (0:ℚ) ≤ 2^25 by norm_num)
    rw [show ((1/2:ℚ) - 1/2^25) * 2^25 = 2^24 - 1 by norm_num] at hm
    exact hm
  have hKge : (2^23 : ℤ) ≤ K := by
    have h' : ((2^23 : ℤ) : ℚ) - 1 < (K : ℚ) := by push_cast; linarith
    have h'' : (2^23 : ℤ) - 1 < K := by exact_mod_cast h'
    omega
  have hKle : K ≤ 2^24 - 1 := by
    have h' : (K : ℚ) < ((2^24 : ℤ) : ℚ) := by push_cast; linarith
    have h'' : K < (2^24 : ℤ) := by exact_mod_cast h'
    omega
  have hpy : roundf32 r = (K : ℚ)/2^25 := by rw [heval]; ring
  have hsub : f32sub (roundf32 r) (1/2) = ((K - 2^24 : ℤ) : ℚ)/2^25 := by
    unfold f32sub
    rw [hpy, show (K:ℚ)/2^25 - 1/2 = ((K - 2^24 : ℤ) : ℚ)/2^25 by push_cast; ring]
    exact roundf32_int_div_pow (K - 2^24) 25 (by omega) (by norm_num)
  rw [hsub]
  have habs : |((K - 2^24 : ℤ) : ℚ)/2^25| = ((2^24 - K : ℤ) : ℚ)/2^25 := by
    rw [abs_div, abs_of_pos (show (0:ℚ) < 2^25 by norm_num)]
    congr 1
    rw [abs_of_nonpos]
    · push_cast
      ring
    · push_cast
      linarith
  rw [habs]
  have hadd : f32add 0 (((2^24 - K : ℤ) : ℚ)/2^25) = ((2^24 - K : ℤ) : ℚ)/2^25 := by
    unfold f32add
    rw [zero_add]
    exact roundf32_int_div_pow (2^24 - K) 25 (by omega) (by norm_num)
  rw [hadd]
  have hbound : ((2^24 - K : ℤ) : ℚ) ≤ 2^23 := by
    have hb : (2^24 - K : ℤ) ≤ 2^23 := by omega
    exact_mod_cast hb
  rw [div_lt_iff₀ (show (0:ℚ) < 2^25 by norm_num)]
  push_cast
  have hKgeQ : (2^23 : ℚ) ≤ (K : ℚ) := by exact_mod_cast hKge
  linarith

/-- Claim C4 counterexample: on a 1×1 canvas the pixel `(0, height/2) = (0, 0)`
does NOT satisfy the LeftTriangle membership predicate (its test value is
exactly `0.5`, and membership requires strictly less), refuting the claim as
stated for width = height = 1. -/
theorem claim_C4_counterexample :
    triangleTest 1 1 ((0 : ℤ), ((1 / 2 : ℕ) : ℤ)) = false := by
  have hc : ((1 / 2 : ℕ) : ℤ) = 0 := by norm_num
  rw [hc]
  exact triangleTest_one_one

/-- Claim C4 (amended): on canvases with `2 ≤ height ≤ width ≤ 2^24` the
LeftTriangle membership predicate holds at `(0, height/2)` and fails at
`(width-1, 0)`. -/
theorem claim_C4_amended (w h : ℕ) (hh2 : 2 ≤ h) (hhw : h ≤ w) (hub : w ≤ 2^24) :
    triangleTest w h ((0 : ℤ), ((h / 2 : ℕ) : ℤ)) = true ∧
    triangleTest w h (((w : ℤ) - 1, (0 : ℤ))) = false := by
  have hh0 : (0:ℚ) < (h:ℚ) := by
    have hnat : 0 < h := by omega
    exact_mod_cast hnat
  have hls : lowerSize w h = (h : ℚ) := by
    unfold lowerSize
    rw [min_eq_right hhw]
    exact roundf32_natCast h (le_trans hhw hub)
  have hnx : f32div (roundf32 ((0:ℤ) : ℚ)) (lowerSize w h) = 0 := by
    rw [hls]
    unfold f32div
    norm_num [roundf32_zero]
  have hcast : roundf32 ((((h / 2 : ℕ) : ℤ)) : ℚ) = ((h / 2 : ℕ) : ℚ) := by
    rw [Int.cast_natCast]
    exact roundf32_natCast (h / 2) (le_trans (Nat.div_le_self h 2) (le_trans hhw hub))
  have hny : f32div (roundf32 ((((h / 2 : ℕ) : ℤ)) : ℚ)) (lowerSize w h) =
      roundf32 (((h / 2 : ℕ) : ℚ) / (h : ℚ)) := by
    rw [hcast, hls]
    rfl
  have hn1 : 2 * (h / 2) ≤ h := by omega
  have hn2 : h ≤ 2 * (h / 2) + 1 := by omega
  have hq1 : 2 * ((h / 2 : ℕ) : ℚ) ≤ (h : ℚ) := by exact_mod_cast hn1
  have hq2 : (h : ℚ) ≤ 2 * ((h / 2 : ℕ) : ℚ) + 1 := by exact_mod_cast hn2
  have hhq : (h : ℚ) ≤ 2^24 := by
    have := le_trans hhw hub
    exact_mod_cast this
  have hh2q : (2:ℚ) ≤ (h:ℚ) := by exact_mod_cast hh2
  have hr14 : 1/4 ≤ ((h / 2 : ℕ) : ℚ) / (h : ℚ) := by
    rw [le_div_iff₀ hh0]
    linarith
  have hr12 : ((h / 2 : ℕ) : ℚ) / (h : ℚ) ≤ 1/2 := by
    rw [div_le_iff₀ hh0]
    linarith
  constructor
  · show decide (f32add (f32div (roundf32 ((0:ℤ) : ℚ)) (lowerSize w h))
      |f32sub (f32div (roundf32 ((((h / 2 : ℕ) : ℤ)) : ℚ)) (lowerSize w h)) c05| < c05) = true
    rw [hnx, hny, c05_eq]
    simp only [decide_eq_true_eq]
    by_cases hcase : ((h / 2 : ℕ) : ℚ) / (h : ℚ) = 1/2
    · rw [hcase, roundf32_half]
      have e1 : f32sub (1/2) (1/2) = 0 := by
        unfold f32sub
        norm_num [roundf32_zero]
      rw [e1, abs_zero]
      have e2 : f32add 0 0 = 0 := by
        unfold f32add
        norm_num [roundf32_zero]
      rw [e2]
      norm_num
    · have hlt : ((h / 2 : ℕ) : ℚ) / (h : ℚ) < 1/2 := lt_of_le_of_ne hr12 hcase
      have hstrict : ((h / 2 : ℕ) : ℚ) / (h : ℚ) ≤ 1/2 - 1/2^25 := by
        have hnat : 2 * (h / 2) + 1 ≤ h := by
          by_contra hcon
          push_neg at hcon
          have heq : h = 2 * (h / 2) := by omega
          apply hcase
          rw [div_eq_iff (ne_of_gt hh0)]
          have hcast2 : (h:ℚ) = 2 * ((h / 2 : ℕ) : ℚ) := by exact_mod_cast heq
          linarith
        have hcast3 : 2 * ((h / 2 : ℕ) : ℚ) + 1 ≤ (h:ℚ) := by exact_mod_cast hnat
        rw [div_le_iff₀ hh0]
        linarith
      exact triangle_mid_lt (((h / 2 : ℕ) : ℚ) / (h : ℚ)) hr14 hstrict
  · show decide (f32add (f32div (roundf32 ((((w : ℤ) - 1 : ℤ)) : ℚ)) (lowerSize w h))
      |f32sub (f32div (roundf32 ((0:ℤ) : ℚ)) (lowerSize w h)) c05| < c05) = false
    rw [hnx, c05_eq]
    have e1 : f32sub 0 (1/2) = -(1/2) := by
      unfold f32sub
      norm_num [roundf32_neg_half]
    rw [e1, abs_neg, abs_of_pos (show (0:ℚ) < 1/2 by norm_num)]
    have hnxnn : 0 ≤ f32div (roundf32 ((((w : ℤ) - 1 : ℤ)) : ℚ)) (lowerSize w h) := by
      unfold f32div
      apply roundf32_nonneg
      apply div_nonneg
      · apply roundf32_nonneg
        push_cast
        have hw1 : (1:ℚ) ≤ (w:ℚ) := by
          have : 1 ≤ w := by omega
          exact_mod_cast this
        linarith
      · rw [hls]
        exact le_of_lt hh0
    have hge : 1/2 ≤ f32add (f32div (roundf32 ((((w : ℤ) - 1 : ℤ)) : ℚ)) (lowerSize w h))
        (1/2) := by
      unfold f32add
      apply roundf32_ge_half
      linarith
    rw [decide_eq_false_iff_not]
    exact not_lt.mpr hge

/-- Claim C4 (amended) witness: the 2×2 canvas. -/
theorem claim_C4_witness :
    2 ≤ 2 ∧ 2 ≤ 2 ∧ 2 ≤ 2^24 ∧
    (triangleTest 2 2 ((0 : ℤ), ((2 / 2 : ℕ) : ℤ)) = true ∧
     triangleTest 2 2 (((2 : ℤ) - 1, (0 : ℤ))) = false) :=
  ⟨le_refl 2, le_refl 2, by norm_num,
    claim_C4_amended 2 2 (le_refl 2) (le_refl 2) (by norm_num)⟩
